import Mathlib

/-!
Shallow embedding of the bulk membership-mutation job core of the `backend`
service (files `backend/tasks.py`, `backend/routes/operations.py`,
`backend/routes/collections.py`): the delta computer, the bulk add task, the
undo task, and the status / deletion route handlers, together with proofs of
the spec-level properties of these components.

Modelling conventions:
* a membership row of the relational store is a `Row`;
* the shared key-value store values the tasks only read (the per-job cancel
  flag and the global interactive-active marker) are an environment `Env` of
  time-indexed booleans, where time advances by one at each `time.sleep(1)`;
* the writes a task performs on the shared store are recorded as a `StoreOp`
  trace; the rows a task commits are appended to its `db` list;
* every `self.update_state` call is recorded as an `Emission`;
* the pause loop (`while ...: time.sleep(1)`) is fuel-bounded; a run that does
  not finish within its fuel is `none`.
-/

namespace HarmonicJobs

/-- One membership row of the relational store: a company's membership in a
collection (a `CompanyCollectionAssociation` record). -/
structure Row where
  company_id : Int
  collection_id : String
deriving DecidableEq, Repr

/-- Distinct member ids of one collection, as read from the association rows. -/
def members (db : List Row) (c : String) : Finset Int :=
  ((db.filter (fun a => a.collection_id == c)).map (fun a => a.company_id)).toFinset

/-- Spec-side description of the source term of the delta: members of the
source collection, restricted to the selection when one is given. -/
def members_selected (db : List Row) (c : String) (sel : Option (List Int)) : Finset Int :=
  match sel with
  | none => members db c
  | some s => members db c ∩ s.toFinset

/-- Shallow embedding of `_compute_delta_ids` (`backend/tasks.py`): the source
collection's rows are read, optionally restricted to `selected_ids` — an empty
explicit selection returns `[]` before any further query — collected into a
set, and the target collection's membership set is subtracted. The Python
function returns `list(source_ids - target_ids)` in unspecified set order; the
set of returned ids is modelled as a `Finset`. -/
def _compute_delta_ids (db : List Row) (source_collection_id target_collection_id : String)
    (selected_ids : Option (List Int)) : Finset Int :=
  match selected_ids with
  | some sel =>
      if sel.isEmpty then ∅
      else
        (((db.filter (fun a => a.collection_id == source_collection_id)).filter
            (fun a => decide (a.company_id ∈ sel))).map (fun a => a.company_id)).toFinset \
          ((db.filter (fun a => a.collection_id == target_collection_id)).map
            (fun a => a.company_id)).toFinset
  | none =>
      ((db.filter (fun a => a.collection_id == source_collection_id)).map
          (fun a => a.company_id)).toFinset \
        ((db.filter (fun a => a.collection_id == target_collection_id)).map
          (fun a => a.company_id)).toFinset

/-- The Celery task states used by the tasks (`celery.states`). -/
inductive CeleryState
  | STARTED
  | REVOKED
  | SUCCESS
  | FAILURE
deriving DecidableEq, Repr

/-- One `self.update_state(state=..., meta=...)` call: the state together with
the meta fields the tasks put in the payload. A field absent from a given
payload is `none`. -/
structure Emission where
  state : CeleryState
  status : String
  current : Option Nat
  total : Option Nat
  percent : Option ℚ
  eta_seconds : Option ℚ
  message : Option String
deriving DecidableEq, Repr

/-- A write performed on the shared key-value store: lock acquisition
(`SET key value NX EX`, with its success bit), conditional lock release,
set-add to a job's inserted-id ledger, key deletion, and setting / clearing
the interactive-active marker. -/
inductive StoreOp
  | lockAcquire (key owner : String) (ok : Bool)
  | lockRelease (key owner : String)
  | sadd (key : String) (ids : List Int)
  | del (key : String)
  | setInteractive (owner : String)
  | clearInteractive (owner : String)
deriving DecidableEq, Repr

/-- The shared-store values a bulk task only reads, as functions of time:
`cancel t` is `_is_cancel_requested` for this task at second `t`, and
`interactive t` is `_is_interactive_task_active` at second `t`. Time advances
by one at each `time.sleep(1)` of the pause loop. -/
structure Env where
  cancel : Nat → Bool
  interactive : Nat → Bool

/-- State threaded through a bulk task run: committed rows, this job's
inserted-id ledger, the emissions and store operations so far, the current
time and the `inserted_count` counter. -/
structure BulkState where
  db : List Row
  ledger : Finset Int
  emissions : List Emission
  ops : List StoreOp
  time : Nat
  inserted : Nat
deriving DecidableEq

/-- The structured return value of a bulk task run. -/
inductive JobOutcome
  | cancelled (inserted total : Nat)
  | completed (inserted total : Nat)
  | lockFailed
deriving DecidableEq, Repr

/-- Append one emission. -/
def emitE (s : BulkState) (e : Emission) : BulkState :=
  { s with emissions := s.emissions ++ [e] }

/-- The `REVOKED / cancelled` payload of `bulk_add_companies`. -/
def cancelledEmission (current total : Nat) : Emission :=
  ⟨.REVOKED, "cancelled", some current, some total, none, none, none⟩

/-- The `paused` payload of `bulk_add_companies`. -/
def pausedEmission (current total : Nat) : Emission :=
  ⟨.STARTED, "paused", some current, some total, none, none, some "Paused for interactive task"⟩

/-- The `resumed` payload of `bulk_add_companies`. -/
def resumedEmission (current total : Nat) : Emission :=
  ⟨.STARTED, "resumed", some current, some total, none, none, some "Resuming after interactive task"⟩

/-- The percent computation of the batch-boundary emission:
`(inserted_count / total) * 100 if total else 100.0`, in exact arithmetic. -/
def pctOf (total i : Nat) : ℚ :=
  if total = 0 then 100 else (i : ℚ) / (total : ℚ) * 100

/-- Redis key of a job's inserted-id ledger. -/
def ledgerKey (task_id : String) : String := "operation:" ++ task_id ++ ":inserted_ids"

/-- Redis key of a job's cancel flag. -/
def cancelKey (task_id : String) : String := "operation:" ++ task_id ++ ":cancel"

/-- Redis key of a collection's writer lock. -/
def lockKey (collection_id : String) : String := "collection:" ++ collection_id ++ ":lock"

/-- Batch boundary of the bulk loop: every row of the batch is added and
flushed (`inserted_count += 1` each), the batch committed as one unit, its
member ids appended to the ledger (`_store_inserted_ids` returns early on an
empty list), and the `in_progress` progress payload emitted with
`percent = (inserted_count / total) * 100` (`100.0` when `total == 0`) and
`eta_seconds = max(total - inserted_count, 0) * 0.1`. -/
def commitBatch (tid tgt : String) (total : Nat) (batch : List Int) (s : BulkState) : BulkState :=
  let inserted := s.inserted + batch.length
  let remaining := total - inserted
  { db := s.db ++ batch.map (fun cid => Row.mk cid tgt)
    ledger := s.ledger ∪ batch.toFinset
    emissions := s.emissions ++
      [⟨.STARTED, "in_progress", some inserted, some total, some (pctOf total inserted),
        some ((remaining : ℚ) * (1 / 10)), none⟩]
    ops := s.ops ++ (if batch.isEmpty then [] else [.sadd (ledgerKey tid) batch])
    time := s.time
    inserted := inserted }

/-- The pause loop of `bulk_add_companies`:
`while _is_interactive_task_active(r) and not _is_cancel_requested(r, task_id):
time.sleep(1)`. Each iteration whose condition holds sleeps one second; the
loop returns the time at which the condition first fails, or `none` when the
fuel is exhausted. -/
def pauseLoop (env : Env) : Nat → Nat → Option Nat
  | 0, _ => none
  | fuel + 1, t =>
      if env.interactive t && !(env.cancel t) then pauseLoop env fuel (t + 1)
      else some t

/-- Result of processing one member of the delta: either the task halted
(returning from inside the loop on cancellation), or it stepped to the next
member with a new pending batch. -/
inductive StepRes
  | halted (s : BulkState) (res : JobOutcome)
  | stepped (s : BulkState) (batch : List Int)
deriving DecidableEq

/-- The tail of one loop iteration of `bulk_add_companies` after the cancel
and pause checks: append the member to the pending batch, and commit it at a
batch boundary (`len(batch) >= batch_size or idx == total`, with
`batch_size = 50`). -/
def afterChecks (tid tgt : String) (total idx : Nat) (cid : Int) (batch : List Int)
    (s : BulkState) : StepRes :=
  let batch' := batch ++ [cid]
  if 50 ≤ batch'.length ∨ idx = total then
    .stepped (commitBatch tid tgt total batch' s) []
  else
    .stepped s batch'

/-- One iteration of the member loop of `bulk_add_companies`: the cancel flag
is checked first (set → emit `REVOKED / cancelled` and return); then the
interactive-active marker (set → emit `paused`, run the pause loop, then
either return cancelled or emit `resumed` and continue); then the member is
appended to the batch and committed at a batch boundary. -/
def memberStep (env : Env) (fuel : Nat) (tid tgt : String) (total idx : Nat) (cid : Int)
    (batch : List Int) (s : BulkState) : Option StepRes :=
  if env.cancel s.time then
    some (.halted (emitE s (cancelledEmission s.inserted total)) (.cancelled s.inserted total))
  else if env.interactive s.time then
    let s1 := emitE s (pausedEmission s.inserted total)
    match pauseLoop env fuel s1.time with
    | none => none
    | some t' =>
        let s2 : BulkState := { s1 with time := t' }
        if env.cancel t' then
          some (.halted (emitE s2 (cancelledEmission s2.inserted total))
            (.cancelled s2.inserted total))
        else
          some (afterChecks tid tgt total idx cid batch
            (emitE s2 (resumedEmission s2.inserted total)))
  else
    some (afterChecks tid tgt total idx cid batch s)

/-- The member loop of `bulk_add_companies` over `enumerate(delta_ids, start=1)`,
followed by the post-loop cancel check: cancel set → `REVOKED / cancelled`,
otherwise `SUCCESS / completed` with `percent = 100.0` and `eta_seconds = 0`. -/
def runMembers (env : Env) (fuel : Nat) (tid tgt : String) (total : Nat) :
    List (Nat × Int) → List Int → BulkState → Option (BulkState × JobOutcome)
  | [], _batch, s =>
      if env.cancel s.time then
        some (emitE s (cancelledEmission s.inserted total), .cancelled s.inserted total)
      else
        some (emitE s ⟨.SUCCESS, "completed", some s.inserted, some total, some 100, some 0, none⟩,
          .completed s.inserted total)
  | (idx, cid) :: rest, batch, s =>
      match memberStep env fuel tid tgt total idx cid batch s with
      | none => none
      | some (.halted s' res) => some (s', res)
      | some (.stepped s' batch') => runMembers env fuel tid tgt total rest batch' s'

/-- The lock-conflict message of `bulk_add_companies`. -/
def lockHeldMessage : String :=
  "Another bulk operation is already writing to the target collection."

/-- Shallow embedding of the task `bulk_add_companies` (`backend/tasks.py`).
`lockFree` is the success of the `SET NX EX` lock acquisition on the target
collection; on failure the task emits `FAILURE / failed` with the lock-held
message and returns without touching the database. Otherwise it runs the
member loop over the delta — passed as the list `delta_ids`, the unspecified
set-iteration order of `list(source_ids - target_ids)` — and finally releases
the lock (conditional-on-owner delete, recorded as one `lockRelease`). -/
def bulk_add_companies (env : Env) (fuel : Nat) (tid tgt : String) (lockFree : Bool)
    (delta_ids : List Int) (db0 : List Row) (t0 : Nat) : Option (BulkState × JobOutcome) :=
  let s0 : BulkState :=
    { db := db0, ledger := ∅, emissions := [],
      ops := [.lockAcquire (lockKey tgt) tid lockFree], time := t0, inserted := 0 }
  if lockFree then
    let total := delta_ids.length
    let s1 := emitE s0 ⟨.STARTED, "starting", some 0, some total, none, none, none⟩
    match runMembers env fuel tid tgt total (List.enumFrom 1 delta_ids) [] s1 with
    | none => none
    | some (s, res) =>
        some ({ s with ops := s.ops ++ [.lockRelease (lockKey tgt) tid] }, res)
  else
    some (emitE s0 ⟨.FAILURE, "failed", none, none, none, none, some lockHeldMessage⟩,
      .lockFailed)

/-- Result of an undo run: the remaining rows, the undone job's ledger after
the run, the deleted row count (the `deleted` value of both the success meta
and the return payload), the emissions, and the store-operation trace. -/
structure UndoOut where
  db : List Row
  ledger : Finset Int
  deleted : Nat
  emissions : List Emission
  ops : List StoreOp
deriving DecidableEq

/-- Shallow embedding of the task `undo_bulk_add` (`backend/tasks.py`): set the
interactive-active marker, fetch the undone job's inserted-id ledger; when it
is empty return `deleted=0` at once; otherwise delete every membership row of
the target collection whose company id is in the ledger, commit, and clear the
undone job's ledger and cancel flag (`_clear_operation_state`); the marker is
cleared on every exit path. -/
def undo_bulk_add (undo_tid target_collection_id task_id_to_undo : String)
    (ledger : Finset Int) (db : List Row) : UndoOut :=
  let em0 : List Emission := [⟨.STARTED, "starting", some 0, some 0, none, none, none⟩]
  if ledger = ∅ then
    { db := db, ledger := ledger, deleted := 0,
      emissions := em0 ++ [⟨.SUCCESS, "completed", none, none, none, none, none⟩],
      ops := [.setInteractive undo_tid, .clearInteractive undo_tid] }
  else
    let doomed := fun r =>
      r.collection_id == target_collection_id && decide (r.company_id ∈ ledger)
    { db := db.filter (fun r => !(doomed r)), ledger := ∅,
      deleted := (db.filter doomed).length,
      emissions := em0 ++ [⟨.SUCCESS, "completed", none, none, none, none, none⟩],
      ops := [.setInteractive undo_tid, .del (ledgerKey task_id_to_undo),
        .del (cancelKey task_id_to_undo), .clearInteractive undo_tid] }

/-- Shallow embedding of the route handler `delete_collection`
(`backend/routes/collections.py`): it reads the target collection's lock key
first and refuses with HTTP 409 while an owner is present, before touching the
store; then 404 for a missing collection; otherwise it deletes the
collection's association rows and the collection itself. -/
def delete_collection (lock_owner : Option String) (collections : List String)
    (db : List Row) (collection_id : String) :
    Except Nat (List String × List Row) :=
  match lock_owner with
  | some _ => .error 409
  | none =>
      if collections.contains collection_id then
        .ok (collections.erase collection_id,
          db.filter (fun r => !(r.collection_id == collection_id)))
      else .error 404

/-- Python `str.lower()` on the ASCII strings the handlers lower-case,
character by character. -/
def pyLower (s : String) : String := String.mk (s.data.map Char.toLower)

/-- Shallow embedding of the route handler `delete_companies_from_collection`
(`backend/routes/collections.py`): removes the selected companies (or, in
`all` mode, everything minus the exclusions) from a collection and returns the
new association table with the deleted row count. The handler consults no
lock. -/
def delete_companies_from_collection (db : List Row) (collection_id : String)
    (mode : Option String) (companyIds excludeIds : Option (List Int)) :
    List Row × Nat :=
  let m := pyLower (mode.getD "selected")
  if m == "all" then
    let excl := excludeIds.getD []
    let doomed := fun r => (r.collection_id == collection_id) &&
      (excl.isEmpty || !(excl.contains r.company_id))
    (db.filter (fun r => !(doomed r)), (db.filter doomed).length)
  else
    let ids := companyIds.getD []
    if ids.isEmpty then (db, 0)
    else
      let doomed := fun r => (r.collection_id == collection_id) && ids.contains r.company_id
      (db.filter (fun r => !(doomed r)), (db.filter doomed).length)

/-- The meta dictionary of a task result, with the fields
`get_operation_status` reads; a missing key is `none`. -/
structure MetaDict where
  status : Option String
  current : Option Nat
  total : Option Nat
  percent : Option ℚ
  eta_seconds : Option ℚ
  message : Option String
deriving DecidableEq, Repr

/-- The two backend reads of a Celery `AsyncResult` that
`get_operation_status` performs, each of which can raise while decoding the
stored payload (modelled as `Except`): `result.info` (which may also yield a
non-dict value, modelled as `Except.ok none`) and `result.state`. -/
structure AsyncResultView where
  info : Except String (Option MetaDict)
  state : Except String String

/-- The JSON object `get_operation_status` returns. -/
structure StatusOut where
  task_id : String
  state : String
  status : String
  current : Nat
  total : Nat
  percent : Option ℚ
  eta_seconds : Option ℚ
  message : Option String
deriving DecidableEq, Repr

/-- Shallow embedding of the route handler `get_operation_status`
(`backend/routes/operations.py`): `result.info` is read under a catch-all
(`info = None` on a decoding fault), `meta` is that value when it is a dict
and `{}` otherwise, `result.state` is read under a catch-all
(`state = "UNKNOWN"` on a fault), and the response is assembled from `meta`
with defaults. The embedding is a total function: no fault escapes. -/
def get_operation_status (task_id : String) (res : AsyncResultView) : StatusOut :=
  let info : Option MetaDict :=
    match res.info with
    | .ok v => v
    | .error _ => none
  let meta : MetaDict :=
    match info with
    | some m => m
    | none => ⟨none, none, none, none, none, none⟩
  let st : String :=
    match res.state with
    | .ok s => s
    | .error _ => "UNKNOWN"
  { task_id := task_id
    state := st
    status := meta.status.getD (pyLower st)
    current := meta.current.getD 0
    total := meta.total.getD 0
    percent := meta.percent
    eta_seconds := meta.eta_seconds
    message := meta.message }

/-- Values of the `current` meta field along a list of emissions. -/
def curList (es : List Emission) : List Nat := es.filterMap (fun e => e.current)

/-- Values of the `percent` meta field along a list of emissions. -/
def pctList (es : List Emission) : List ℚ := es.filterMap (fun e => e.percent)

/-- The emission trace of an optional run. -/
def runEmissions (o : Option (BulkState × JobOutcome)) : List Emission :=
  match o with
  | some (s, _) => s.emissions
  | none => []

/-- The outcome of an optional run. -/
def runOutcome (o : Option (BulkState × JobOutcome)) : Option JobOutcome :=
  match o with
  | some (_, res) => some res
  | none => none

/-- The store-operation trace of an optional run. -/
def runOps (o : Option (BulkState × JobOutcome)) : List StoreOp :=
  match o with
  | some (s, _) => s.ops
  | none => []

/-- An environment in which neither the cancel flag nor the interactive-active
marker is ever set. -/
def envQuiet : Env := ⟨fun _ => false, fun _ => false⟩

/-- An environment in which the cancel flag is set from the start. -/
def envCancelAll : Env := ⟨fun _ => true, fun _ => false⟩

/-- An environment in which the interactive-active marker is set during the
first two seconds and the cancel flag never. -/
def envPauseTwo : Env := ⟨fun _ => false, fun t => decide (t < 2)⟩

/-- The membership set produced by one filter-then-map query is invariant
under permutation of the association rows. -/
theorem toFinset_filter_map_perm (db db' : List Row) (p : Row → Bool)
    (hperm : db.Perm db') :
    ((db.filter p).map (fun a => a.company_id)).toFinset
      = ((db'.filter p).map (fun a => a.company_id)).toFinset :=
  List.toFinset_eq_of_perm _ _ ((hperm.filter p).map _)

/-- The doubly filtered membership query is likewise permutation invariant. -/
theorem toFinset_filter2_map_perm (db db' : List Row) (p q : Row → Bool)
    (hperm : db.Perm db') :
    (((db.filter p).filter q).map (fun a => a.company_id)).toFinset
      = (((db'.filter p).filter q).map (fun a => a.company_id)).toFinset :=
  List.toFinset_eq_of_perm _ _ (((hperm.filter p).filter q).map _)

/-- The selection-restricted source query of the delta computer equals the
source membership intersected with the selection. -/
theorem filter_selection_toFinset (db : List Row) (A : String) (sel : List Int) :
    (((db.filter (fun a => a.collection_id == A)).filter
        (fun a => decide (a.company_id ∈ sel))).map (fun a => a.company_id)).toFinset
      = members db A ∩ sel.toFinset := by
  ext x
  simp only [List.mem_toFinset, List.mem_map, List.mem_filter, decide_eq_true_eq,
    Finset.mem_inter, members]
  constructor
  · rintro ⟨a, ⟨⟨ha, hc⟩, hm⟩, rfl⟩
    exact ⟨⟨a, ⟨ha, hc⟩, rfl⟩, hm⟩
  · rintro ⟨⟨a, ⟨ha, hc⟩, rfl⟩, hm⟩
    exact ⟨a, ⟨⟨ha, hc⟩, hm⟩, rfl⟩

/-- C1: the Delta Computer returns exactly the member ids of the source
collection (restricted to the selection when one is given) that are absent
from the target collection; the result is a set and is invariant under
permutation of the association rows; and an explicit empty selection yields
the empty set. -/
theorem delta_computer_correct (db db' : List Row) (A B : String) (S : Option (List Int))
    (hperm : db.Perm db') :
    _compute_delta_ids db A B S = members_selected db A S \ members db B
    ∧ _compute_delta_ids db A B S = _compute_delta_ids db' A B S
    ∧ (S = some [] → _compute_delta_ids db A B S = ∅) := by
  refine ⟨?_, ?_, ?_⟩
  · cases S with
    | none => rfl
    | some sel =>
        by_cases hs : sel.isEmpty
        · rw [List.isEmpty_iff] at hs
          subst hs
          simp [_compute_delta_ids, members_selected]
        · unfold _compute_delta_ids
          dsimp only
          rw [if_neg hs, filter_selection_toFinset]
          rfl
  · cases S with
    | none =>
        unfold _compute_delta_ids
        dsimp only
        rw [toFinset_filter_map_perm db db' _ hperm, toFinset_filter_map_perm db db' _ hperm]
    | some sel =>
        by_cases hs : sel.isEmpty
        · unfold _compute_delta_ids
          dsimp only
          rw [if_pos hs, if_pos hs]
        · unfold _compute_delta_ids
          dsimp only
          rw [if_neg hs, if_neg hs,
            toFinset_filter2_map_perm db db' _ _ hperm, toFinset_filter_map_perm db db' _ hperm]
  · rintro rfl
    simp [_compute_delta_ids]

/-- Witness for C1 on a concrete table: source rows for ids 1,2,3, target row
for id 3, selection `[2,3]`, and a permuted copy of the table. -/
theorem delta_computer_correct_witness :
    _compute_delta_ids [⟨1, "A"⟩, ⟨2, "A"⟩, ⟨3, "A"⟩, ⟨3, "B"⟩] "A" "B" (some [2, 3])
        = members_selected [⟨1, "A"⟩, ⟨2, "A"⟩, ⟨3, "A"⟩, ⟨3, "B"⟩] "A" (some [2, 3])
          \ members [⟨1, "A"⟩, ⟨2, "A"⟩, ⟨3, "A"⟩, ⟨3, "B"⟩] "B"
    ∧ _compute_delta_ids [⟨1, "A"⟩, ⟨2, "A"⟩, ⟨3, "A"⟩, ⟨3, "B"⟩] "A" "B" (some [2, 3])
        = _compute_delta_ids [⟨3, "B"⟩, ⟨3, "A"⟩, ⟨2, "A"⟩, ⟨1, "A"⟩] "A" "B" (some [2, 3])
    ∧ (some [2, 3] = some ([] : List Int) →
        _compute_delta_ids [⟨1, "A"⟩, ⟨2, "A"⟩, ⟨3, "A"⟩, ⟨3, "B"⟩] "A" "B" (some [2, 3]) = ∅) :=
  delta_computer_correct [⟨1, "A"⟩, ⟨2, "A"⟩, ⟨3, "A"⟩, ⟨3, "B"⟩]
    [⟨3, "B"⟩, ⟨3, "A"⟩, ⟨2, "A"⟩, ⟨1, "A"⟩] "A" "B" (some [2, 3]) (by decide)

/-- C9: the status query is a total function of the two backend reads; when
both reads fault while decoding the stored record, the response degrades to
`state = "UNKNOWN"` (with `status = "unknown"` and default progress fields)
instead of propagating the fault. -/
theorem status_query_unknown_on_undecodable (tid e₁ e₂ : String) (res : AsyncResultView)
    (h1 : res.info = Except.error e₁) (h2 : res.state = Except.error e₂) :
    get_operation_status tid res =
      { task_id := tid, state := "UNKNOWN", status := "unknown", current := 0, total := 0,
        percent := none, eta_seconds := none, message := none } := by
  unfold get_operation_status
  rw [h1, h2]
  rfl

/-- Witness for C9: a result record whose two reads both fault. -/
theorem status_query_unknown_on_undecodable_witness :
    get_operation_status "t1" ⟨Except.error "decode", Except.error "decode"⟩ =
      { task_id := "t1", state := "UNKNOWN", status := "unknown", current := 0, total := 0,
        percent := none, eta_seconds := none, message := none } :=
  status_query_unknown_on_undecodable "t1" "decode" "decode"
    ⟨Except.error "decode", Except.error "decode"⟩ rfl rfl

/-- C10: the undo job deletes only membership rows of the given target
collection: the rows of every other collection are exactly preserved (even
when their member id is in the ledger), and the surviving table is a sublist
of the original (undo only ever deletes). -/
theorem undo_frame_other_collections (u tgt j : String) (ledger : Finset Int) (db : List Row) :
    (undo_bulk_add u tgt j ledger db).db.filter (fun r => !(r.collection_id == tgt))
        = db.filter (fun r => !(r.collection_id == tgt))
    ∧ (undo_bulk_add u tgt j ledger db).db.Sublist db := by
  unfold undo_bulk_add
  by_cases h : ledger = ∅
  · simp [h]
  · simp only [h, if_neg, not_false_iff]
    constructor
    · rw [List.filter_filter]
      refine List.filter_congr ?_
      intro r _
      by_cases hc : r.collection_id == tgt
      · simp [hc]
      · simp [hc]
    · exact List.filter_sublist _

/-- C6: when lock acquisition on the target collection fails, the bulk job
emits exactly one `FAILURE / failed` payload with the lock-held message,
leaves the database untouched, performs no ledger write, and its store trace
is the single failed acquisition — no retry and no release. -/
theorem bulk_lock_conflict_terminal (env : Env) (fuel : Nat) (tid tgt : String)
    (delta_ids : List Int) (db0 : List Row) (t0 : Nat) :
    bulk_add_companies env fuel tid tgt false delta_ids db0 t0 =
      some ({ db := db0, ledger := ∅,
              emissions := [⟨.FAILURE, "failed", none, none, none, none, some lockHeldMessage⟩],
              ops := [.lockAcquire (lockKey tgt) tid false], time := t0, inserted := 0 },
        .lockFailed) := rfl

/-- C8 counterexample: with the very same lock state (owner `"job1"` holds the
lock of collection `"c"`), collection deletion refuses with 409, but removal
of members from `"c"` performs the write anyway — the member-removal handler
consults no lock, so the claim that every such operation refuses is false. -/
theorem member_removal_ignores_lock_counterexample :
    delete_collection (some "job1") ["c"] [⟨1, "c"⟩] "c" = Except.error 409
    ∧ delete_companies_from_collection [⟨1, "c"⟩] "c" (some "selected") (some [1]) none
        = ([], 1) := by
  constructor
  · rfl
  · rfl

/-- C8 as amended: collection deletion checks the lock and refuses with HTTP
409 whenever any owner holds it; member removal performs no lock check — for
a non-empty selection it simply deletes the matching rows of the collection,
whatever the lock state. -/
theorem lock_checked_only_by_collection_deletion (o : String) (collections : List String)
    (db db₂ : List Row) (cid cid₂ : String) (ids : List Int) (hids : ids.isEmpty = false) :
    delete_collection (some o) collections db cid = Except.error 409
    ∧ delete_companies_from_collection db₂ cid₂ (some "selected") (some ids) none
        = (db₂.filter (fun r => !((r.collection_id == cid₂) && ids.contains r.company_id)),
          (db₂.filter (fun r => (r.collection_id == cid₂) && ids.contains r.company_id)).length) := by
  constructor
  · rfl
  · simp only [delete_companies_from_collection, Option.getD_some]
    rw [if_neg (by decide), if_neg (by simp [hids])]

/-- Witness for C8-as-amended at a concrete lock owner, table and selection. -/
theorem lock_checked_only_by_collection_deletion_witness :
    delete_collection (some "job1") ["c"] [⟨1, "c"⟩] "c" = Except.error 409
    ∧ delete_companies_from_collection [⟨1, "c"⟩, ⟨2, "c"⟩, ⟨1, "d"⟩] "c"
        (some "selected") (some [1]) none
        = (([⟨1, "c"⟩, ⟨2, "c"⟩, ⟨1, "d"⟩] : List Row).filter
            (fun r => !((r.collection_id == "c") && [(1 : Int)].contains r.company_id)),
          (([⟨1, "c"⟩, ⟨2, "c"⟩, ⟨1, "d"⟩] : List Row).filter
            (fun r => (r.collection_id == "c") && [(1 : Int)].contains r.company_id)).length) :=
  lock_checked_only_by_collection_deletion "job1" ["c"] [⟨1, "c"⟩]
    [⟨1, "c"⟩, ⟨2, "c"⟩, ⟨1, "d"⟩] "c" "c" [1] rfl

/-- The emitted percent is monotone in the counter. -/
theorem pctOf_mono (total : Nat) {i j : Nat} (h : i ≤ j) : pctOf total i ≤ pctOf total j := by
  unfold pctOf
  by_cases ht : total = 0
  · simp [ht]
  · rw [if_neg ht, if_neg ht]
    have ht' : (0 : ℚ) < (total : ℚ) := by exact_mod_cast Nat.pos_of_ne_zero ht
    have hc : (i : ℚ) ≤ (j : ℚ) := by exact_mod_cast h
    gcongr

/-- A full counter emits exactly one hundred percent. -/
theorem pctOf_self (total : Nat) : pctOf total total = 100 := by
  unfold pctOf
  by_cases ht : total = 0
  · simp [ht]
  · rw [if_neg ht]
    have ht' : (total : ℚ) ≠ 0 := by exact_mod_cast ht
    rw [div_self ht', one_mul]

/-- A counter within the total emits at most one hundred percent. -/
theorem pctOf_le_100 (total i : Nat) (h : i ≤ total) : pctOf total i ≤ 100 :=
  (pctOf_mono total h).trans_eq (pctOf_self total)

/-- With a positive total, one hundred percent is emitted only by the full
counter. -/
theorem pctOf_eq_100 (total i : Nat) (ht : total ≠ 0) (hi : pctOf total i = 100) : i = total := by
  unfold pctOf at hi
  rw [if_neg ht] at hi
  have ht' : (total : ℚ) ≠ 0 := by exact_mod_cast ht
  have : (i : ℚ) = (total : ℚ) := by
    field_simp at hi
    linarith
  exact_mod_cast this

/-- Nondecreasing chains stay nondecreasing when a dominating value is
appended. -/
theorem chain_le_append {α : Type} [Preorder α] (l : List α) (c : α)
    (h : l.Chain' (fun a b => a ≤ b)) (hb : ∀ x ∈ l, x ≤ c) :
    (l ++ [c]).Chain' (fun a b => a ≤ b) := by
  induction l with
  | nil => simp
  | cons a t ih =>
      rw [List.cons_append, List.chain'_cons']
      refine ⟨?_, ih h.tail (fun x hx => hb x (List.mem_cons_of_mem a hx))⟩
      intro b hbmem
      cases t with
      | nil =>
          simp only [List.nil_append, List.head?_cons, Option.mem_def, Option.some.injEq] at hbmem
          subst hbmem
          exact hb a (List.mem_cons_self a [])
      | cons x t' =>
          simp only [List.cons_append, List.head?_cons, Option.mem_def, Option.some.injEq] at hbmem
          subst hbmem
          exact (List.chain'_cons.mp h).1

/-- Invariants of the emission trace of a running bulk job whose counter is
`ins`: `current` values are bounded by the counter and nondecreasing,
`percent` values are bounded by the counter's percent and nondecreasing, and
an emitted `percent = 100` pins `current = total`. -/
structure EmInv (total : Nat) (es : List Emission) (ins : Nat) : Prop where
  curLe : ∀ c ∈ curList es, c ≤ ins
  curMono : (curList es).Chain' (fun a b => a ≤ b)
  pctLe : ∀ p ∈ pctList es, p ≤ pctOf total ins
  pctMono : (pctList es).Chain' (fun a b => a ≤ b)
  pctTop : ∀ e ∈ es, e.percent = some 100 → e.current = some total

/-- Appending an emission that carries the (possibly advanced) counter and no
percent preserves the emission invariants. -/
theorem EmInv.append_nopct {total : Nat} {es : List Emission} {ins : Nat} (ins' : Nat)
    (e : Emission) (hinv : EmInv total es ins) (hle : ins ≤ ins')
    (hcur : e.current = some ins') (hpct : e.percent = none) :
    EmInv total (es ++ [e]) ins' := by
  have hC : curList (es ++ [e]) = curList es ++ [ins'] := by
    simp [curList, List.filterMap_append, hcur]
  have hP : pctList (es ++ [e]) = pctList es := by
    simp [pctList, List.filterMap_append, hpct]
  refine ⟨?_, ?_, ?_, ?_, ?_⟩
  · rw [hC]
    intro c hc
    rcases List.mem_append.mp hc with h | h
    · exact (hinv.curLe c h).trans hle
    · simp only [List.mem_singleton] at h
      subst h
      exact le_refl _
  · rw [hC]
    exact chain_le_append _ _ hinv.curMono (fun x hx => (hinv.curLe x hx).trans hle)
  · rw [hP]
    intro p hp
    exact (hinv.pctLe p hp).trans (pctOf_mono total hle)
  · rw [hP]
    exact hinv.pctMono
  · intro e' he'
    rcases List.mem_append.mp he' with h | h
    · exact hinv.pctTop e' h
    · simp only [List.mem_singleton] at h
      subst h
      simp [hpct]

/-- Appending the batch-boundary `in_progress` emission advances the counter
by the batch size and preserves the emission invariants. -/
theorem EmInv.append_progress {total : Nat} {es : List Emission} {ins : Nat} (k : Nat) (eta : ℚ)
    (hinv : EmInv total es ins) (ht : total ≠ 0) :
    EmInv total
      (es ++ [⟨.STARTED, "in_progress", some (ins + k), some total,
        some (pctOf total (ins + k)), some eta, none⟩]) (ins + k) := by
  have hC : curList (es ++ [⟨.STARTED, "in_progress", some (ins + k), some total,
      some (pctOf total (ins + k)), some eta, none⟩]) = curList es ++ [ins + k] := by
    simp [curList, List.filterMap_append]
  have hP : pctList (es ++ [⟨.STARTED, "in_progress", some (ins + k), some total,
      some (pctOf total (ins + k)), some eta, none⟩]) = pctList es ++ [pctOf total (ins + k)] := by
    simp [pctList, List.filterMap_append]
  have hmono : ins ≤ ins + k := Nat.le_add_right ins k
  refine ⟨?_, ?_, ?_, ?_, ?_⟩
  · rw [hC]
    intro c hc
    rcases List.mem_append.mp hc with h | h
    · exact (hinv.curLe c h).trans hmono
    · simp only [List.mem_singleton] at h
      subst h
      exact le_refl _
  · rw [hC]
    exact chain_le_append _ _ hinv.curMono (fun x hx => (hinv.curLe x hx).trans hmono)
  · rw [hP]
    intro p hp
    rcases List.mem_append.mp hp with h | h
    · exact (hinv.pctLe p h).trans (pctOf_mono total hmono)
    · simp only [List.mem_singleton] at h
      subst h
      exact le_refl _
  · rw [hP]
    exact chain_le_append _ _ hinv.pctMono
      (fun x hx => (hinv.pctLe x hx).trans (pctOf_mono total hmono))
  · intro e' he'
    rcases List.mem_append.mp he' with h | h
    · exact hinv.pctTop e' h
    · simp only [List.mem_singleton] at h
      subst h
      intro hp
      simp only [Option.some.injEq] at hp
      have := pctOf_eq_100 total (ins + k) ht hp
      simp [this]

/-- Appending the terminal `completed` emission (whose counter equals the
total) preserves the emission invariants. -/
theorem EmInv.append_completed {total : Nat} {es : List Emission} {ins : Nat}
    (hinv : EmInv total es ins) (heq : ins = total) :
    EmInv total
      (es ++ [⟨.SUCCESS, "completed", some ins, some total, some 100, some 0, none⟩]) ins := by
  have hC : curList (es ++ [⟨.SUCCESS, "completed", some ins, some total, some 100,
      some 0, none⟩]) = curList es ++ [ins] := by
    simp [curList, List.filterMap_append]
  have hP : pctList (es ++ [⟨.SUCCESS, "completed", some ins, some total, some 100,
      some 0, none⟩]) = pctList es ++ [100] := by
    simp [pctList, List.filterMap_append]
  have h100 : pctOf total ins = 100 := by
    rw [heq]
    exact pctOf_self total
  refine ⟨?_, ?_, ?_, ?_, ?_⟩
  · rw [hC]
    intro c hc
    rcases List.mem_append.mp hc with h | h
    · exact hinv.curLe c h
    · simp only [List.mem_singleton] at h
      subst h
      exact le_refl _
  · rw [hC]
    exact chain_le_append _ _ hinv.curMono hinv.curLe
  · rw [hP]
    intro p hp
    rcases List.mem_append.mp hp with h | h
    · exact hinv.pctLe p h
    · simp only [List.mem_singleton] at h
      subst h
      rw [h100]
  · rw [hP]
    exact chain_le_append _ _ hinv.pctMono
      (fun x hx => (hinv.pctLe x hx).trans_eq h100)
  · intro e' he'
    rcases List.mem_append.mp he' with h | h
    · exact hinv.pctTop e' h
    · simp only [List.mem_singleton] at h
      subst h
      intro _
      simp [heq]

/-- Case analysis of the post-check tail of one loop iteration: either no
batch boundary is reached (then the member is only appended, and the index has
not reached the total), or the batch is committed — appending its rows,
advancing the counter, adding only a ledger set-add to the store trace, and
preserving the emission invariants. -/
theorem afterChecks_spec (tid tgt : String) (total idx : Nat) (cid : Int) (batch : List Int)
    (s : BulkState) (hinv : EmInv total s.emissions s.inserted) (ht : total ≠ 0) :
    (afterChecks tid tgt total idx cid batch s = .stepped s (batch ++ [cid]) ∧ idx ≠ total)
    ∨ (∃ s₁, afterChecks tid tgt total idx cid batch s = .stepped s₁ []
        ∧ s₁.db = s.db ++ (batch ++ [cid]).map (fun c => Row.mk c tgt)
        ∧ s₁.inserted = s.inserted + (batch ++ [cid]).length
        ∧ (∀ k, StoreOp.del k ∈ s₁.ops → StoreOp.del k ∈ s.ops)
        ∧ EmInv total s₁.emissions s₁.inserted) := by
  unfold afterChecks
  by_cases hcond : 50 ≤ (batch ++ [cid]).length ∨ idx = total
  · right
    refine ⟨commitBatch tid tgt total (batch ++ [cid]) s, ?_, rfl, rfl, ?_, ?_⟩
    · dsimp only
      rw [if_pos hcond]
    · intro k hk
      rcases List.mem_append.mp hk with hk | hk
      · exact hk
      · exfalso
        revert hk
        split
        · simp
        · simp
    · exact hinv.append_progress _ _ ht
  · left
    constructor
    · dsimp only
      rw [if_neg hcond]
    · exact fun he => hcond (Or.inr he)

/-- Case analysis of one member step of the bulk loop: either the step halts
as cancelled — with the original counter, no new row, no new store operation,
and the cancelled emission last — or it steps without a commit, or it steps
with a batch commit; in every case the emission invariants are preserved. -/
theorem memberStep_spec (env : Env) (fuel : Nat) (tid tgt : String) (total idx : Nat)
    (cid : Int) (batch : List Int) (s : BulkState) (out : StepRes)
    (h : memberStep env fuel tid tgt total idx cid batch s = some out)
    (hinv : EmInv total s.emissions s.inserted) (ht : total ≠ 0) :
    (∃ s₁, out = .halted s₁ (.cancelled s.inserted total)
        ∧ s₁.db = s.db ∧ s₁.inserted = s.inserted ∧ s₁.ops = s.ops
        ∧ EmInv total s₁.emissions s₁.inserted
        ∧ s₁.emissions.getLast? = some (cancelledEmission s.inserted total))
    ∨ (∃ s₁, out = .stepped s₁ (batch ++ [cid])
        ∧ idx ≠ total
        ∧ s₁.db = s.db ∧ s₁.inserted = s.inserted ∧ s₁.ops = s.ops
        ∧ EmInv total s₁.emissions s₁.inserted)
    ∨ (∃ s₁, out = .stepped s₁ []
        ∧ s₁.db = s.db ++ (batch ++ [cid]).map (fun c => Row.mk c tgt)
        ∧ s₁.inserted = s.inserted + (batch ++ [cid]).length
        ∧ (∀ k, StoreOp.del k ∈ s₁.ops → StoreOp.del k ∈ s.ops)
        ∧ EmInv total s₁.emissions s₁.inserted) := by
  unfold memberStep at h
  by_cases hc : env.cancel s.time
  · rw [if_pos hc] at h
    cases h
    left
    refine ⟨_, rfl, rfl, rfl, rfl, ?_, ?_⟩
    · exact hinv.append_nopct s.inserted _ le_rfl rfl rfl
    · exact List.getLast?_concat _
  · rw [if_neg hc] at h
    by_cases hi : env.interactive s.time
    · rw [if_pos hi] at h
      dsimp only [emitE] at h
      cases hp : pauseLoop env fuel s.time with
      | none =>
          rw [hp] at h
          cases h
      | some t' =>
          rw [hp] at h
          dsimp only at h
          by_cases hct : env.cancel t'
          · rw [if_pos hct] at h
            cases h
            left
            refine ⟨_, rfl, rfl, rfl, rfl, ?_, ?_⟩
            · exact (hinv.append_nopct s.inserted _ le_rfl rfl rfl).append_nopct
                s.inserted _ le_rfl rfl rfl
            · exact List.getLast?_concat _
          · rw [if_neg hct] at h
            cases h
            have hinv₃ : EmInv total
                ((s.emissions ++ [pausedEmission s.inserted total])
                  ++ [resumedEmission s.inserted total]) s.inserted :=
              (hinv.append_nopct s.inserted _ le_rfl rfl rfl).append_nopct
                s.inserted _ le_rfl rfl rfl
            rcases afterChecks_spec tid tgt total idx cid batch
              { db := s.db, ledger := s.ledger,
                emissions := s.emissions ++ [pausedEmission s.inserted total]
                  ++ [resumedEmission s.inserted total],
                ops := s.ops, time := t', inserted := s.inserted } hinv₃ ht with
              ⟨heq, hne⟩ | ⟨s₁, heq, hdb, hins, hops, hinv₁⟩
            · right
              left
              exact ⟨_, heq, hne, rfl, rfl, rfl, hinv₃⟩
            · right
              right
              exact ⟨s₁, heq, hdb, hins, hops, hinv₁⟩
    · rw [if_neg hi] at h
      cases h
      rcases afterChecks_spec tid tgt total idx cid batch s hinv ht with
        ⟨heq, hne⟩ | ⟨s₁, heq, hdb, hins, hops, hinv₁⟩
      · right
        left
        exact ⟨s, heq, hne, rfl, rfl, rfl, hinv⟩
      · right
        right
        exact ⟨s₁, heq, hdb, hins, hops, hinv₁⟩

/-- What the member loop guarantees from any intermediate state to its end:
the committed rows grow by exactly the counter advance, the emission
invariants hold, the counter stays within the total and never decreases, the
outcome reports the final counter with the job total (cancelled runs end on
the cancelled emission; completed runs have a full counter and end on the
completed emission), and no store-key deletion is ever appended. -/
structure RunConc (total : Nat) (s s' : BulkState) (res : JobOutcome) : Prop where
  dbExt : ∃ rows : List Row, s'.db = s.db ++ rows ∧ s.inserted + rows.length = s'.inserted
  inv : EmInv total s'.emissions s'.inserted
  insLe : s'.inserted ≤ total
  insMono : s.inserted ≤ s'.inserted
  outcome : (res = .cancelled s'.inserted total
      ∧ s'.emissions.getLast? = some (cancelledEmission s'.inserted total))
    ∨ (res = .completed s'.inserted total ∧ s'.inserted = total
      ∧ s'.emissions.getLast? = some
          ⟨.SUCCESS, "completed", some s'.inserted, some total, some 100, some 0, none⟩)
  opsDel : ∀ k, StoreOp.del k ∈ s'.ops → StoreOp.del k ∈ s.ops

/-- Loop invariant theorem for `runMembers`: from a state whose counter,
pending batch and remaining enumerated members add up to the total, whose
remaining indices are the consecutive range ending at the total, whose batch
is flushed when no member remains, and whose emission trace satisfies the
invariants, any finishing run satisfies `RunConc`. -/
theorem runMembers_spec (env : Env) (fuel : Nat) (tid tgt : String) (total : Nat)
    (rest : List (Nat × Int)) :
    ∀ (batch : List Int) (s s' : BulkState) (res : JobOutcome),
      runMembers env fuel tid tgt total rest batch s = some (s', res) →
      s.inserted + batch.length + rest.length = total →
      rest.map Prod.fst = List.range' (s.inserted + batch.length + 1) rest.length →
      (rest = [] → batch = []) →
      EmInv total s.emissions s.inserted →
      RunConc total s s' res := by
  induction rest with
  | nil =>
      intro batch s s' res hrun hcount _hidx hlast hinv
      have hb : batch = [] := hlast rfl
      subst hb
      simp only [List.length_nil, Nat.add_zero] at hcount
      unfold runMembers at hrun
      by_cases hc : env.cancel s.time
      · rw [if_pos hc] at hrun
        cases hrun
        refine ⟨⟨[], by simp [emitE], by simp [emitE]⟩,
          hinv.append_nopct s.inserted _ le_rfl rfl rfl, le_of_eq hcount, le_rfl,
          Or.inl ⟨rfl, List.getLast?_concat _⟩, fun k hk => hk⟩
      · rw [if_neg hc] at hrun
        cases hrun
        refine ⟨⟨[], by simp [emitE], by simp [emitE]⟩,
          hinv.append_completed hcount, le_of_eq hcount, le_rfl,
          Or.inr ⟨rfl, hcount, List.getLast?_concat _⟩, fun k hk => hk⟩
  | cons hd tl ih =>
      intro batch s s' res hrun hcount hidx hlast hinv
      obtain ⟨idx, cid⟩ := hd
      simp only [List.length_cons] at hcount
      have ht : total ≠ 0 := by omega
      simp only [List.map_cons, List.length_cons, List.range'_succ] at hidx
      have hidxhead : idx = s.inserted + batch.length + 1 := (List.cons.injEq _ _ _ _).mp hidx |>.1
      have hidxtail : tl.map Prod.fst =
          List.range' (s.inserted + batch.length + 1 + 1) tl.length :=
        (List.cons.injEq _ _ _ _).mp hidx |>.2
      unfold runMembers at hrun
      cases hms : memberStep env fuel tid tgt total idx cid batch s with
      | none =>
          rw [hms] at hrun
          exact Option.noConfusion hrun
      | some out =>
          rw [hms] at hrun
          rcases memberStep_spec env fuel tid tgt total idx cid batch s out hms hinv ht with
            ⟨s₁, hout, hdb, hins, hops, hinv₁, hlastE⟩ |
            ⟨s₁, hout, hne, hdb, hins, hops, hinv₁⟩ |
            ⟨s₁, hout, hdb, hins, hops, hinv₁⟩
          · subst hout
            simp only [] at hrun
            cases hrun
            refine ⟨⟨[], by simp [hdb], by simp [hins]⟩, hinv₁, ?_, le_of_eq hins.symm,
              Or.inl ⟨by rw [hins], by rw [hins]; exact hlastE⟩,
              fun k hk => by rw [hops] at hk; exact hk⟩
            omega
          · subst hout
            simp only [] at hrun
            have hcount' : s₁.inserted + (batch ++ [cid]).length + tl.length = total := by
              simp only [List.length_append, List.length_cons, List.length_nil, hins]
              omega
            have hstart : s₁.inserted + (batch ++ [cid]).length + 1
                = s.inserted + batch.length + 1 + 1 := by
              simp only [List.length_append, List.length_cons, List.length_nil, hins]
              omega
            have hidx' : tl.map Prod.fst =
                List.range' (s₁.inserted + (batch ++ [cid]).length + 1) tl.length := by
              rw [hstart]
              exact hidxtail
            have hlast' : tl = [] → batch ++ [cid] = [] := by
              intro htl
              exfalso
              apply hne
              subst htl
              simp only [List.length_nil] at hcount
              omega
            have rc := ih (batch ++ [cid]) s₁ s' res hrun hcount' hidx' hlast' hinv₁
            obtain ⟨rows, hrows, hlen⟩ := rc.dbExt
            refine ⟨⟨rows, by rw [hrows, hdb], by rw [← hins]; exact hlen⟩, rc.inv, rc.insLe,
              le_trans (le_of_eq hins.symm) rc.insMono, rc.outcome,
              fun k hk => by rw [← hops]; exact rc.opsDel k hk⟩
          · subst hout
            simp only [] at hrun
            have hcount' : s₁.inserted + ([] : List Int).length + tl.length = total := by
              simp only [List.length_append, List.length_cons, List.length_nil, hins]
              omega
            have hstart : s₁.inserted + ([] : List Int).length + 1
                = s.inserted + batch.length + 1 + 1 := by
              simp only [List.length_append, List.length_cons, List.length_nil, hins]
              omega
            have hidx' : tl.map Prod.fst =
                List.range' (s₁.inserted + ([] : List Int).length + 1) tl.length := by
              rw [hstart]
              exact hidxtail
            have rc := ih [] s₁ s' res hrun hcount' hidx' (fun _ => rfl) hinv₁
            obtain ⟨rows, hrows, hlen⟩ := rc.dbExt
            refine ⟨⟨(batch ++ [cid]).map (fun c => Row.mk c tgt) ++ rows, ?_, ?_⟩,
              rc.inv, rc.insLe, ?_, rc.outcome,
              fun k hk => hops k (rc.opsDel k hk)⟩
            · rw [hrows, hdb, List.append_assoc]
            · rw [← hlen, hins]
              simp only [List.length_append, List.length_map, List.length_cons, List.length_nil]
              omega
            · have : s.inserted ≤ s₁.inserted := by
                rw [hins]
                omega
              exact le_trans this rc.insMono

/-- C5: the undo job is idempotent: an empty ledger yields `deleted = 0` with
the table unchanged; a second undo of the same job — fed the first run's
resulting ledger and table — always yields `deleted = 0`; and a first undo
after a completed bulk job (every ledger id present as a row of the target
collection, in a duplicate-free table) deletes exactly the ledger's member
ids: the deleted count is the ledger's size and precisely the matching rows
are removed. -/
theorem undo_idempotent (u₁ u₂ tgt j : String) (ledger : Finset Int) (db : List Row)
    (hcomplete : ∀ i ∈ ledger, Row.mk i tgt ∈ db) (hnd : db.Nodup) :
    ((undo_bulk_add u₁ tgt j ∅ db).deleted = 0 ∧ (undo_bulk_add u₁ tgt j ∅ db).db = db)
    ∧ (undo_bulk_add u₂ tgt j (undo_bulk_add u₁ tgt j ledger db).ledger
        (undo_bulk_add u₁ tgt j ledger db).db).deleted = 0
    ∧ (undo_bulk_add u₁ tgt j ledger db).deleted = ledger.card
    ∧ ∀ r : Row, r ∈ (undo_bulk_add u₁ tgt j ledger db).db
        ↔ (r ∈ db ∧ ¬(r.collection_id = tgt ∧ r.company_id ∈ ledger)) := by
  refine ⟨⟨?_, ?_⟩, ?_, ?_, ?_⟩
  · simp [undo_bulk_add]
  · simp [undo_bulk_add]
  · by_cases hl : ledger = ∅
    · simp [undo_bulk_add, hl]
    · simp [undo_bulk_add, hl]
  · by_cases hl : ledger = ∅
    · subst hl
      simp [undo_bulk_add]
    · unfold undo_bulk_add
      rw [if_neg hl]
      dsimp only
      have hinj : Function.Injective (fun i : Int => Row.mk i tgt) := by
        intro a b hab
        simpa using congrArg Row.company_id hab
      have hnodup : (db.filter (fun r =>
          r.collection_id == tgt && decide (r.company_id ∈ ledger))).Nodup :=
        hnd.filter _
      have hset : (db.filter (fun r =>
          r.collection_id == tgt && decide (r.company_id ∈ ledger))).toFinset
          = ledger.image (fun i : Int => Row.mk i tgt) := by
        ext r
        simp only [List.mem_toFinset, List.mem_filter, Bool.and_eq_true, beq_iff_eq,
          decide_eq_true_eq, Finset.mem_image]
        constructor
        · rintro ⟨hr, hcol, hmem⟩
          exact ⟨r.company_id, hmem, by cases r with | mk a b => simp_all⟩
        · rintro ⟨i, hi, rfl⟩
          exact ⟨hcomplete i hi, rfl, hi⟩
      calc (db.filter (fun r =>
              r.collection_id == tgt && decide (r.company_id ∈ ledger))).length
          = (db.filter (fun r =>
              r.collection_id == tgt && decide (r.company_id ∈ ledger))).toFinset.card :=
            (List.toFinset_card_of_nodup hnodup).symm
        _ = (ledger.image (fun i : Int => Row.mk i tgt)).card := by rw [hset]
        _ = ledger.card := Finset.card_image_of_injective ledger hinj
  · intro r
    by_cases hl : ledger = ∅
    · subst hl
      simp [undo_bulk_add]
    · unfold undo_bulk_add
      rw [if_neg hl]
      dsimp only
      simp only [List.mem_filter, Bool.not_eq_true']
      constructor
      · rintro ⟨hr, hb⟩
        refine ⟨hr, ?_⟩
        rintro ⟨hcol, hmem⟩
        rw [show (r.collection_id == tgt) = true from by simp [hcol],
          show decide (r.company_id ∈ ledger) = true from by simp [hmem]] at hb
        simp at hb
      · rintro ⟨hr, hb⟩
        refine ⟨hr, ?_⟩
        by_cases hcol : r.collection_id = tgt
        · by_cases hmem : r.company_id ∈ ledger
          · exact absurd ⟨hcol, hmem⟩ hb
          · simp [hmem]
        · simp [hcol]

/-- The pause loop sleeps one second per iteration and returns the first
polled second at which the marker is observed clear or the cancel flag set;
at every earlier polled second (one per second from entry) the marker was
still set and the cancel flag still clear. -/
theorem pauseLoop_spec (env : Env) (fuel : Nat) :
    ∀ (t t' : Nat), pauseLoop env fuel t = some t' →
      t ≤ t'
      ∧ (env.interactive t' = false ∨ env.cancel t' = true)
      ∧ ∀ u, t ≤ u → u < t' → env.interactive u = true ∧ env.cancel u = false := by
  induction fuel with
  | zero =>
      intro t t' h
      exact Option.noConfusion h
  | succ n ih =>
      intro t t' h
      unfold pauseLoop at h
      by_cases hcond : env.interactive t && !(env.cancel t)
      · rw [if_pos hcond] at h
        obtain ⟨hle, hexit, hmid⟩ := ih (t + 1) t' h
        simp only [Bool.and_eq_true, Bool.not_eq_true'] at hcond
        refine ⟨by omega, hexit, ?_⟩
        intro u hu1 hu2
        rcases Nat.eq_or_lt_of_le hu1 with heq | hlt
        · subst heq
          exact hcond
        · exact hmid u (by omega) hu2
      · rw [if_neg hcond] at h
        cases h
        refine ⟨le_rfl, ?_, fun u hu1 hu2 => absurd (lt_of_le_of_lt hu1 hu2) (lt_irrefl t)⟩
        simp only [Bool.and_eq_true, Bool.not_eq_true', not_and] at hcond
        by_cases hi : env.interactive t
        · exact Or.inr (by simpa using hcond hi)
        · exact Or.inl (by simpa using hi)

/-- C3: when at a per-member check the cancel flag is clear and the
interactive-active marker set, the step emits the paused payload with the
unchanged counter and enters the pause loop, which polls once per second: at
every second from the check until the exit second the marker was observed
still set (and the cancel flag still clear), and no write happens in between
(the pre-exit state still has the original rows and counter). At the exit
second the loop stops because the marker is clear or cancel is set: if cancel
is set the job finishes as cancelled — with no write at all and the cancelled
payload emitted — otherwise the resumed payload is emitted and the iteration
resumes from a state with the original rows, any batch commit happening only
at the exit second, at which the marker is clear. -/
theorem bulk_preemption_pause (env : Env) (fuel : Nat) (tid tgt : String) (total idx : Nat)
    (cid : Int) (batch : List Int) (s : BulkState) (out : StepRes)
    (h : memberStep env fuel tid tgt total idx cid batch s = some out)
    (hc : env.cancel s.time = false) (hi : env.interactive s.time = true) :
    ∃ t', pauseLoop env fuel s.time = some t'
      ∧ s.time ≤ t'
      ∧ (∀ u, s.time ≤ u → u < t' → env.interactive u = true ∧ env.cancel u = false)
      ∧ ((env.cancel t' = true
            ∧ out = .halted
                { db := s.db, ledger := s.ledger,
                  emissions := (s.emissions ++ [pausedEmission s.inserted total])
                    ++ [cancelledEmission s.inserted total],
                  ops := s.ops, time := t', inserted := s.inserted }
                (.cancelled s.inserted total))
          ∨ (env.cancel t' = false ∧ env.interactive t' = false
            ∧ out = afterChecks tid tgt total idx cid batch
                { db := s.db, ledger := s.ledger,
                  emissions := (s.emissions ++ [pausedEmission s.inserted total])
                    ++ [resumedEmission s.inserted total],
                  ops := s.ops, time := t', inserted := s.inserted })) := by
  unfold memberStep at h
  rw [if_neg (by simp [hc])] at h
  rw [if_pos hi] at h
  dsimp only [emitE] at h
  cases hp : pauseLoop env fuel s.time with
  | none =>
      rw [hp] at h
      exact Option.noConfusion h
  | some t' =>
      rw [hp] at h
      dsimp only at h
      obtain ⟨hle, hexit, hmid⟩ := pauseLoop_spec env fuel s.time t' hp
      refine ⟨t', rfl, hle, hmid, ?_⟩
      by_cases hct : env.cancel t'
      · rw [if_pos hct] at h
        cases h
        exact Or.inl ⟨hct, rfl⟩
      · rw [if_neg hct] at h
        cases h
        have hifalse : env.interactive t' = false := by
          rcases hexit with hif | hcf
          · exact hif
          · exact absurd hcf hct
        exact Or.inr ⟨by simpa using hct, hifalse, rfl⟩

/-- The state of a lock-successful bulk run right after the `starting`
emission. -/
def startState (tid tgt : String) (total : Nat) (db0 : List Row) (t0 : Nat) : BulkState :=
  { db := db0, ledger := ∅,
    emissions := [⟨.STARTED, "starting", some 0, some total, none, none, none⟩],
    ops := [.lockAcquire (lockKey tgt) tid true], time := t0, inserted := 0 }

/-- A lock-successful bulk run is the member loop from the start state,
followed by the lock release. -/
theorem bulk_run_eq (env : Env) (fuel : Nat) (tid tgt : String) (ids : List Int)
    (db0 : List Row) (t0 : Nat) :
    bulk_add_companies env fuel tid tgt true ids db0 t0 =
      (match runMembers env fuel tid tgt ids.length (List.enumFrom 1 ids) []
          (startState tid tgt ids.length db0 t0) with
      | none => none
      | some (s, res) =>
          some ({ s with ops := s.ops ++ [.lockRelease (lockKey tgt) tid] }, res)) := rfl

/-- The emission invariants hold at the start state. -/
theorem emInv_start (total : Nat) (tid tgt : String) (db0 : List Row) (t0 : Nat) :
    EmInv total (startState tid tgt total db0 t0).emissions
      (startState tid tgt total db0 t0).inserted := by
  refine ⟨?_, ?_, ?_, ?_, ?_⟩ <;> simp [startState, curList, pctList]

/-- Any finishing lock-successful bulk run factors through a final loop state
that satisfies `RunConc` from the start state; the returned state is that loop
state plus the trailing lock release. -/
theorem bulk_add_run_conc (env : Env) (fuel : Nat) (tid tgt : String) (ids : List Int)
    (db0 : List Row) (t0 : Nat) (s : BulkState) (res : JobOutcome)
    (h : bulk_add_companies env fuel tid tgt true ids db0 t0 = some (s, res)) :
    ∃ s₂, runMembers env fuel tid tgt ids.length (List.enumFrom 1 ids) []
        (startState tid tgt ids.length db0 t0) = some (s₂, res)
      ∧ s.db = s₂.db ∧ s.emissions = s₂.emissions ∧ s.inserted = s₂.inserted
      ∧ s.ops = s₂.ops ++ [.lockRelease (lockKey tgt) tid]
      ∧ RunConc ids.length (startState tid tgt ids.length db0 t0) s₂ res := by
  rw [bulk_run_eq] at h
  cases hr : runMembers env fuel tid tgt ids.length (List.enumFrom 1 ids) []
      (startState tid tgt ids.length db0 t0) with
  | none =>
      rw [hr] at h
      exact Option.noConfusion h
  | some p =>
      obtain ⟨s₂, res₂⟩ := p
      rw [hr] at h
      dsimp only at h
      cases h
      refine ⟨s₂, rfl, rfl, rfl, rfl, rfl, ?_⟩
      refine runMembers_spec env fuel tid tgt ids.length (List.enumFrom 1 ids)
        [] (startState tid tgt ids.length db0 t0) s₂ res hr ?_ ?_ (fun _ => rfl)
        (emInv_start ids.length tid tgt db0 t0)
      · simp [startState]
      · simp [startState, List.enumFrom_map_fst]

/-- C2: in every finishing lock-successful run of the bulk job, a cancel flag
already set at the job's start time makes the very first suspension point
(before any member, or the post-loop check when the delta is empty) finish the
job as CANCELLED with `current = 0` and zero membership writes; and every
cancelled outcome reports the true total, a current of at most the total that
accounts for exactly the rows written (no write after the observation), and
ends the emission trace on the cancelled payload. -/
theorem bulk_cancellation_correct (env : Env) (fuel : Nat) (tid tgt : String)
    (ids : List Int) (db0 : List Row) (t0 : Nat) (s : BulkState) (res : JobOutcome)
    (h : bulk_add_companies env fuel tid tgt true ids db0 t0 = some (s, res)) :
    (env.cancel t0 = true → res = .cancelled 0 ids.length ∧ s.db = db0)
    ∧ (∀ i tot, res = .cancelled i tot →
        tot = ids.length ∧ i ≤ tot ∧ s.db.length = db0.length + i
        ∧ s.emissions.getLast? = some (cancelledEmission i tot)) := by
  obtain ⟨s₂, hr, hdb, hem, hins, hops, rc⟩ := bulk_add_run_conc env fuel tid tgt ids db0 t0
    s res h
  constructor
  · intro hc
    cases ids with
    | nil =>
        rw [show List.enumFrom 1 ([] : List Int) = [] from rfl] at hr
        unfold runMembers at hr
        rw [if_pos (show env.cancel (startState tid tgt ([] : List Int).length db0 t0).time = true
          from hc)] at hr
        cases hr
        exact ⟨rfl, by rw [hdb]; rfl⟩
    | cons a tl =>
        rw [show List.enumFrom 1 (a :: tl) = (1, a) :: List.enumFrom 2 tl from rfl] at hr
        unfold runMembers at hr
        unfold memberStep at hr
        rw [if_pos (show env.cancel (startState tid tgt (a :: tl).length db0 t0).time = true
          from hc)] at hr
        dsimp only at hr
        cases hr
        exact ⟨rfl, by rw [hdb]; rfl⟩
  · intro i tot hres
    subst hres
    rcases rc.outcome with ⟨hres₂, hlastE⟩ | ⟨hres₂, _, _⟩
    · injection hres₂ with hi htot
      obtain ⟨rows, hrows, hlen⟩ := rc.dbExt
      simp only [startState] at hlen
      refine ⟨htot, ?_, ?_, ?_⟩
      · rw [hi, htot]
        exact rc.insLe
      · rw [hdb, hrows]
        simp only [startState, List.length_append]
        omega
      · rw [hem, hlastE, hi, htot]
    · exact JobOutcome.noConfusion hres₂

/-- C4 as amended: within any finishing run of the bulk job, the emitted
`current` values never decrease, the emitted `percent` values never decrease,
and `percent = 100` is emitted only together with `current = total` — which
happens at the final batch's `in_progress` emission as well as at COMPLETED,
so `percent = 100` is not exclusive to the terminal state. -/
theorem progress_monotonic_amended (env : Env) (fuel : Nat) (tid tgt : String)
    (lockFree : Bool) (ids : List Int) (db0 : List Row) (t0 : Nat) (s : BulkState)
    (res : JobOutcome)
    (h : bulk_add_companies env fuel tid tgt lockFree ids db0 t0 = some (s, res)) :
    (curList s.emissions).Chain' (fun a b => a ≤ b)
    ∧ (pctList s.emissions).Chain' (fun a b => a ≤ b)
    ∧ ∀ e ∈ s.emissions, e.percent = some 100 → e.current = some ids.length := by
  cases lockFree with
  | false =>
      rw [bulk_lock_conflict_terminal] at h
      cases h
      refine ⟨?_, ?_, ?_⟩ <;> simp [curList, pctList]
  | true =>
      obtain ⟨s₂, hr, hdb, hem, hins, hops, rc⟩ := bulk_add_run_conc env fuel tid tgt ids db0 t0
        s res h
      rw [hem]
      exact ⟨rc.inv.curMono, rc.inv.pctMono, rc.inv.pctTop⟩

/-- C4 counterexample: a one-member run with no cancellation emits the final
batch's `in_progress` payload — whose percent value equals 100 — in the
non-terminal STARTED state with status `in_progress`, so `percent = 100` is
not confined to the COMPLETED terminal emission. -/
theorem percent_100_before_completed_counterexample :
    pctOf 1 1 = 100
    ∧ (⟨.STARTED, "in_progress", some 1, some 1, some (pctOf 1 1),
        some (((1 - 1 : Nat) : ℚ) * (1 / 10)), none⟩ : Emission)
        ∈ runEmissions (bulk_add_companies envQuiet 1 "t1" "c" true [5] [] 0)
    ∧ CeleryState.STARTED ≠ CeleryState.SUCCESS
    ∧ "in_progress" ≠ "completed" := by
  refine ⟨by norm_num [pctOf], ?_, by decide, by decide⟩
  have h2 : runEmissions (bulk_add_companies envQuiet 1 "t1" "c" true [5] [] 0)
      = [⟨.STARTED, "starting", some 0, some 1, none, none, none⟩,
        ⟨.STARTED, "in_progress", some 1, some 1, some (pctOf 1 1),
          some (((1 - 1 : Nat) : ℚ) * (1 / 10)), none⟩,
        ⟨.SUCCESS, "completed", some 1, some 1, some 100, some 0, none⟩] := rfl
  rw [h2]
  simp

/-- C7 counterexample: a run cancelled at its first check reaches the
CANCELLED terminal state, yet its store-operation trace contains no deletion
of the job's cancel-flag key — the flag is left set in the shared store. -/
theorem cancel_flag_not_cleared_counterexample :
    runOutcome (bulk_add_companies envCancelAll 1 "t1" "c" true [5] [] 0)
        = some (.cancelled 0 1)
    ∧ StoreOp.del (cancelKey "t1")
        ∉ runOps (bulk_add_companies envCancelAll 1 "t1" "c" true [5] [] 0) := by
  refine ⟨rfl, ?_⟩
  decide

/-- C7 as amended: the bulk job itself never clears the cancel flag — no
finishing run's store trace contains any key deletion, whatever the terminal
state — while the undo job does delete the undone job's cancel-flag key, but
only when that job's ledger is non-empty. -/
theorem cancel_flag_cleared_only_by_undo (env : Env) (fuel : Nat) (tid tgt : String)
    (lockFree : Bool) (ids : List Int) (db0 : List Row) (t0 : Nat) (s : BulkState)
    (res : JobOutcome)
    (h : bulk_add_companies env fuel tid tgt lockFree ids db0 t0 = some (s, res)) :
    (∀ k, StoreOp.del k ∉ s.ops)
    ∧ (∀ (u tgt₂ j : String) (ledger : Finset Int) (db : List Row), ledger ≠ ∅ →
        StoreOp.del (cancelKey j) ∈ (undo_bulk_add u tgt₂ j ledger db).ops)
    ∧ (∀ (u tgt₂ j : String) (db : List Row),
        StoreOp.del (cancelKey j) ∉ (undo_bulk_add u tgt₂ j ∅ db).ops) := by
  refine ⟨?_, ?_, ?_⟩
  · cases lockFree with
    | false =>
        rw [bulk_lock_conflict_terminal] at h
        cases h
        intro k hk
        simp at hk
    | true =>
        obtain ⟨s₂, hr, hdb, hem, hins, hops, rc⟩ := bulk_add_run_conc env fuel tid tgt ids db0 t0
          s res h
        intro k hk
        rw [hops] at hk
        rcases List.mem_append.mp hk with hk | hk
        · have hk0 := rc.opsDel k hk
          simp [startState] at hk0
        · simp at hk
  · intro u tgt₂ j ledger db hne
    unfold undo_bulk_add
    rw [if_neg hne]
    simp
  · intro u tgt₂ j db
    unfold undo_bulk_add
    rw [if_pos rfl]
    simp

/-- The final state of the run cancelled at its very first suspension point. -/
def cancelledFinal : BulkState :=
  { db := [], ledger := ∅,
    emissions := [⟨.STARTED, "starting", some 0, some 1, none, none, none⟩,
      cancelledEmission 0 1],
    ops := [.lockAcquire (lockKey "c") "t1" true, .lockRelease (lockKey "c") "t1"],
    time := 0, inserted := 0 }

/-- Witness for C2: a one-member job whose cancel flag is set from the start
finishes CANCELLED at `current = 0` with zero writes. -/
theorem bulk_cancellation_correct_witness :
    (envCancelAll.cancel 0 = true →
        JobOutcome.cancelled 0 1 = .cancelled 0 [(5 : Int)].length ∧ cancelledFinal.db = [])
    ∧ (∀ i tot, JobOutcome.cancelled 0 1 = .cancelled i tot →
        tot = [(5 : Int)].length ∧ i ≤ tot
        ∧ cancelledFinal.db.length = ([] : List Row).length + i
        ∧ cancelledFinal.emissions.getLast? = some (cancelledEmission i tot)) :=
  bulk_cancellation_correct envCancelAll 1 "t1" "c" [5] [] 0 cancelledFinal
    (.cancelled 0 1) rfl

/-- Witness for C7-as-amended at the same concrete cancelled run. -/
theorem cancel_flag_cleared_only_by_undo_witness :
    (∀ k, StoreOp.del k ∉ cancelledFinal.ops)
    ∧ (∀ (u tgt₂ j : String) (ledger : Finset Int) (db : List Row), ledger ≠ ∅ →
        StoreOp.del (cancelKey j) ∈ (undo_bulk_add u tgt₂ j ledger db).ops)
    ∧ (∀ (u tgt₂ j : String) (db : List Row),
        StoreOp.del (cancelKey j) ∉ (undo_bulk_add u tgt₂ j ∅ db).ops) :=
  cancel_flag_cleared_only_by_undo envCancelAll 1 "t1" "c" true [5] [] 0 cancelledFinal
    (.cancelled 0 1) rfl

/-- The final state of the one-member run that completes without
interference. -/
def completedFinal : BulkState :=
  { db := [⟨5, "c"⟩], ledger := ∅ ∪ [(5 : Int)].toFinset,
    emissions := [⟨.STARTED, "starting", some 0, some 1, none, none, none⟩,
      ⟨.STARTED, "in_progress", some 1, some 1, some (pctOf 1 1),
        some (((1 - 1 : Nat) : ℚ) * (1 / 10)), none⟩,
      ⟨.SUCCESS, "completed", some 1, some 1, some 100, some 0, none⟩],
    ops := [.lockAcquire (lockKey "c") "t1" true, .sadd (ledgerKey "t1") [5],
      .lockRelease (lockKey "c") "t1"],
    time := 0, inserted := 1 }

/-- Witness for C4-as-amended at the concrete completed one-member run. -/
theorem progress_monotonic_amended_witness :
    (curList completedFinal.emissions).Chain' (fun a b => a ≤ b)
    ∧ (pctList completedFinal.emissions).Chain' (fun a b => a ≤ b)
    ∧ ∀ e ∈ completedFinal.emissions, e.percent = some 100
        → e.current = some [(5 : Int)].length :=
  progress_monotonic_amended envQuiet 1 "t1" "c" true [5] [] 0 completedFinal
    (.completed 1 1) rfl

/-- An idle bulk state at time zero, about to process a member. -/
def sIdle : BulkState :=
  { db := [], ledger := ∅, emissions := [], ops := [], time := 0, inserted := 0 }

/-- The step result of the member processed under the two-second interactive
window. -/
def outPause : StepRes :=
  afterChecks "t1" "c" 5 1 7 []
    { db := [], ledger := ∅, emissions := [pausedEmission 0 5, resumedEmission 0 5],
      ops := [], time := 2, inserted := 0 }

/-- Witness for C3: with the interactive marker set during the first two
seconds, the member step pauses at second 0, polls at seconds 0 and 1, and
resumes at second 2. -/
theorem bulk_preemption_pause_witness :
    ∃ t', pauseLoop envPauseTwo 10 sIdle.time = some t'
      ∧ sIdle.time ≤ t'
      ∧ (∀ u, sIdle.time ≤ u → u < t' →
          envPauseTwo.interactive u = true ∧ envPauseTwo.cancel u = false)
      ∧ ((envPauseTwo.cancel t' = true
            ∧ outPause = .halted
                { db := sIdle.db, ledger := sIdle.ledger,
                  emissions := (sIdle.emissions ++ [pausedEmission sIdle.inserted 5])
                    ++ [cancelledEmission sIdle.inserted 5],
                  ops := sIdle.ops, time := t', inserted := sIdle.inserted }
                (.cancelled sIdle.inserted 5))
          ∨ (envPauseTwo.cancel t' = false ∧ envPauseTwo.interactive t' = false
            ∧ outPause = afterChecks "t1" "c" 5 1 7 []
                { db := sIdle.db, ledger := sIdle.ledger,
                  emissions := (sIdle.emissions ++ [pausedEmission sIdle.inserted 5])
                    ++ [resumedEmission sIdle.inserted 5],
                  ops := sIdle.ops, time := t', inserted := sIdle.inserted })) :=
  bulk_preemption_pause envPauseTwo 10 "t1" "c" 5 1 7 [] sIdle outPause rfl rfl rfl

/-- Witness for C5 on a concrete ledger and table: undo of a two-id ledger
against a three-row collection. -/
theorem undo_idempotent_witness :
    ((undo_bulk_add "u1" "B" "j" ∅ [⟨1, "B"⟩, ⟨2, "B"⟩, ⟨3, "B"⟩]).deleted = 0
      ∧ (undo_bulk_add "u1" "B" "j" ∅ [⟨1, "B"⟩, ⟨2, "B"⟩, ⟨3, "B"⟩]).db
          = [⟨1, "B"⟩, ⟨2, "B"⟩, ⟨3, "B"⟩])
    ∧ (undo_bulk_add "u2" "B" "j"
        (undo_bulk_add "u1" "B" "j" {1, 2} [⟨1, "B"⟩, ⟨2, "B"⟩, ⟨3, "B"⟩]).ledger
        (undo_bulk_add "u1" "B" "j" {1, 2} [⟨1, "B"⟩, ⟨2, "B"⟩, ⟨3, "B"⟩]).db).deleted = 0
    ∧ (undo_bulk_add "u1" "B" "j" {1, 2} [⟨1, "B"⟩, ⟨2, "B"⟩, ⟨3, "B"⟩]).deleted
        = ({1, 2} : Finset Int).card
    ∧ ∀ r : Row, r ∈ (undo_bulk_add "u1" "B" "j" {1, 2} [⟨1, "B"⟩, ⟨2, "B"⟩, ⟨3, "B"⟩]).db
        ↔ (r ∈ [⟨1, "B"⟩, ⟨2, "B"⟩, ⟨3, "B"⟩]
            ∧ ¬(r.collection_id = "B" ∧ r.company_id ∈ ({1, 2} : Finset Int))) :=
  undo_idempotent "u1" "u2" "B" "j" {1, 2} [⟨1, "B"⟩, ⟨2, "B"⟩, ⟨3, "B"⟩]
    (by decide) (by decide)

end HarmonicJobs
